import Mathlib

/-!
Verification of the kartothek metadata and indexing core.

This file gives a shallow embedding of the partition-key codec, the
compressed metadata codec, the store-key scanner, the secondary-index
builder and the dataset-metadata model, and proves the specified
properties about them.

The helpers `_check_contains_null` and `ensure_unicode_string_type`
are translated directly from `kartothek/serialization/_util.py`, and
`packb`/`unpackb` from `kartothek/core/_zmsgpack.py`.  The remaining
components (the URL-quoting codec, the store-key scanner, the index
builder and the dataset model, as well as the external `msgpack` and
`zstandard` libraries) are not shipped in the source tree and are
modelled from the specification, as marked in their doc comments.
-/

namespace Kartothek

/-- Error taxonomy of the specification (§7): decode failures of the
partition-key codec, null-byte validation failures, corrupt compressed
blobs, invalid object-format streams, and missing metadata documents. -/
inductive KtkError where
  | decodeError
  | validationError
  | corruptData
  | deserialization
  | notFound
  deriving DecidableEq, Repr

/-- Python values that can reach the partition codec and the
validation helpers: text strings, raw byte strings, integers, and
`pyNone` standing for Python `None` (a representative of every other
type).  Raw bytes are lists of naturals below 256. -/
inductive PyVal where
  | text (s : String)
  | bytes (bs : List Nat)
  | int (n : Int)
  | pyNone
  deriving DecidableEq, Repr

/-! ## UTF-8 encoding and decoding

Python's `str.encode("utf-8")` / `bytes.decode("utf-8")` pair, used by
the codec boundary (`ensure_unicode_string_type`) and by the quoting
layer.  Encoding maps each code point to its UTF-8 byte sequence;
decoding is strict: it rejects truncated sequences, stray continuation
bytes, overlong forms and surrogate code points. -/

/-- UTF-8 encoding of a single Unicode code point. -/
def utf8EncodeNat (n : Nat) : List Nat :=
  if n < 0x80 then [n]
  else if n < 0x800 then [0xC0 + n / 64, 0x80 + n % 64]
  else if n < 0x10000 then [0xE0 + n / 4096, 0x80 + n / 64 % 64, 0x80 + n % 64]
  else [0xF0 + n / 262144, 0x80 + n / 4096 % 64, 0x80 + n / 64 % 64, 0x80 + n % 64]

/-- Strict UTF-8 decoding of a two-byte sequence: the leading byte is
given, the continuation byte is taken from the list.  Overlong
encodings (code points below 0x80) are rejected. -/
def utf8Decode2 : Nat → List Nat → Option (Nat × List Nat)
  | b0, b1 :: r =>
    if 0x80 ≤ b1 ∧ b1 < 0xC0 then
      if 0x80 ≤ (b0 - 0xC0) * 64 + (b1 - 0x80) then some ((b0 - 0xC0) * 64 + (b1 - 0x80), r)
      else none
    else none
  | _, [] => none

/-- Strict UTF-8 decoding of a three-byte sequence; overlong forms and
surrogate code points are rejected. -/
def utf8Decode3 : Nat → List Nat → Option (Nat × List Nat)
  | b0, b1 :: b2 :: r =>
    if (0x80 ≤ b1 ∧ b1 < 0xC0) ∧ (0x80 ≤ b2 ∧ b2 < 0xC0) then
      if 0x800 ≤ (b0 - 0xE0) * 4096 + (b1 - 0x80) * 64 + (b2 - 0x80) ∧
          ((b0 - 0xE0) * 4096 + (b1 - 0x80) * 64 + (b2 - 0x80) < 0xd800 ∨
            0xdfff < (b0 - 0xE0) * 4096 + (b1 - 0x80) * 64 + (b2 - 0x80)) then
        some ((b0 - 0xE0) * 4096 + (b1 - 0x80) * 64 + (b2 - 0x80), r)
      else none
    else none
  | _, _ => none

/-- Strict UTF-8 decoding of a four-byte sequence; overlong forms and
code points beyond U+10FFFF are rejected. -/
def utf8Decode4 : Nat → List Nat → Option (Nat × List Nat)
  | b0, b1 :: b2 :: b3 :: r =>
    if (0x80 ≤ b1 ∧ b1 < 0xC0) ∧ (0x80 ≤ b2 ∧ b2 < 0xC0) ∧ (0x80 ≤ b3 ∧ b3 < 0xC0) then
      if 0x10000 ≤ (b0 - 0xF0) * 262144 + (b1 - 0x80) * 4096 + (b2 - 0x80) * 64 + (b3 - 0x80) ∧
          (b0 - 0xF0) * 262144 + (b1 - 0x80) * 4096 + (b2 - 0x80) * 64 + (b3 - 0x80) < 0x110000 then
        some ((b0 - 0xF0) * 262144 + (b1 - 0x80) * 4096 + (b2 - 0x80) * 64 + (b3 - 0x80), r)
      else none
    else none
  | _, _ => none

/-- Strict UTF-8 decoding of one code point from the front of a byte
list, returning the code point and the remaining bytes. -/
def utf8DecodeOne : List Nat → Option (Nat × List Nat)
  | [] => none
  | b0 :: rest =>
    if b0 < 0x80 then some (b0, rest)
    else if b0 < 0xC0 then none
    else if b0 < 0xE0 then utf8Decode2 b0 rest
    else if b0 < 0xF0 then utf8Decode3 b0 rest
    else if b0 < 0xF8 then utf8Decode4 b0 rest
    else none

/-- Decode an entire byte list into characters; `fuel` bounds the
number of decoded characters (one byte is consumed per step at least,
so the byte count is always enough fuel).  Surrogate code points are
rejected by the `Nat.isValidChar` test. -/
def utf8DecodeAll : Nat → List Nat → Option (List Char)
  | _, [] => some []
  | 0, _ :: _ => none
  | fuel + 1, b0 :: rest =>
    (utf8DecodeOne (b0 :: rest)).bind fun nr =>
      if h : nr.1.isValidChar then
        (utf8DecodeAll fuel nr.2).map fun cs => Char.ofNatAux nr.1 h :: cs
      else none

/-- UTF-8 bytes of a string, code point by code point. -/
def strToUtf8 (s : String) : List Nat :=
  (s.data.map fun c => utf8EncodeNat c.toNat).flatten

/-- Strict UTF-8 decoding of a byte list into a string. -/
def utf8ToStr (bs : List Nat) : Option String :=
  (utf8DecodeAll bs.length bs).map String.mk

lemma utf8EncodeNat_ne_nil (n : Nat) : utf8EncodeNat n ≠ [] := by
  unfold utf8EncodeNat
  split_ifs <;> simp

lemma length_le_utf8Encode (cs : List Char) :
    cs.length ≤ ((cs.map fun c => utf8EncodeNat c.toNat).flatten).length := by
  induction cs with
  | nil => simp
  | cons c cs ih =>
    simp only [List.map_cons, List.flatten_cons, List.length_append, List.length_cons]
    have h1 : 1 ≤ (utf8EncodeNat c.toNat).length := by
      cases h : utf8EncodeNat c.toNat with
      | nil => exact absurd h (utf8EncodeNat_ne_nil _)
      | cons a l => simp
    omega

lemma utf8EncodeNat_lt_256 {n : Nat} (h : n < 0x110000) :
    ∀ b ∈ utf8EncodeNat n, b < 256 := by
  intro b hb
  unfold utf8EncodeNat at hb
  split_ifs at hb <;> simp at hb <;> omega

lemma char_toNat_lt (c : Char) : c.toNat < 0x110000 := by
  rcases c.valid with h | ⟨h1, h2⟩
  · exact Nat.lt_trans h (by norm_num)
  · exact h2

lemma utf8DecodeOne_encode {n : Nat} (h : n.isValidChar) (rest : List Nat) :
    utf8DecodeOne (utf8EncodeNat n ++ rest) = some (n, rest) := by
  have hs : n < 0xd800 ∨ (0xdfff < n ∧ n < 0x110000) := h
  unfold utf8EncodeNat
  split_ifs with h1 h2 h3
  · simp only [List.cons_append, List.nil_append, utf8DecodeOne]
    rw [if_pos (by omega)]
  · simp only [List.cons_append, List.nil_append, utf8DecodeOne]
    rw [if_neg (by omega), if_neg (by omega), if_pos (by omega)]
    simp only [utf8Decode2]
    rw [if_pos (by omega), if_pos (by omega)]
    simp only [Option.some.injEq, Prod.mk.injEq, and_true]
    omega
  · simp only [List.cons_append, List.nil_append, utf8DecodeOne]
    rw [if_neg (by omega), if_neg (by omega), if_neg (by omega), if_pos (by omega)]
    simp only [utf8Decode3]
    rw [if_pos (by omega), if_pos (by omega)]
    simp only [Option.some.injEq, Prod.mk.injEq, and_true]
    omega
  · simp only [List.cons_append, List.nil_append, utf8DecodeOne]
    rw [if_neg (by omega), if_neg (by omega), if_neg (by omega), if_neg (by omega),
      if_pos (by omega)]
    simp only [utf8Decode4]
    rw [if_pos (by omega), if_pos (by omega)]
    simp only [Option.some.injEq, Prod.mk.injEq, and_true]
    omega

lemma char_ofNatAux_toNat (c : Char) (h : c.toNat.isValidChar) :
    Char.ofNatAux c.toNat h = c := by
  apply Char.ext
  apply UInt32.ext
  show (BitVec.ofNatLt c.toNat _).toNat = _
  simp [Char.toNat, UInt32.toNat]

lemma char_valid_toNat (c : Char) : c.toNat.isValidChar := c.valid

lemma utf8DecodeAll_encode (cs : List Char) (fuel : Nat) (hf : cs.length ≤ fuel) :
    utf8DecodeAll fuel ((cs.map fun c => utf8EncodeNat c.toNat).flatten) = some cs := by
  induction cs generalizing fuel with
  | nil => cases fuel <;> simp [utf8DecodeAll]
  | cons c cs ih =>
    cases fuel with
    | zero => simp at hf
    | succ f =>
      have hne := utf8EncodeNat_ne_nil c.toNat
      have hdec := utf8DecodeOne_encode (char_valid_toNat c)
        ((cs.map fun c => utf8EncodeNat c.toNat).flatten)
      simp only [List.map_cons, List.flatten_cons]
      cases henc : utf8EncodeNat c.toNat with
      | nil => exact absurd henc hne
      | cons e es =>
        rw [henc] at hdec
        simp only [List.cons_append]
        simp only [utf8DecodeAll]
        rw [List.cons_append] at hdec
        rw [hdec]
        rw [Option.some_bind]
        rw [dif_pos (char_valid_toNat c)]
        rw [ih f (by simpa using hf)]
        rw [char_ofNatAux_toNat]
        rfl

lemma utf8ToStr_strToUtf8 (s : String) : utf8ToStr (strToUtf8 s) = some s := by
  unfold utf8ToStr strToUtf8
  rw [utf8DecodeAll_encode s.data _ (length_le_utf8Encode s.data)]
  rfl

/-! ## Helpers from `kartothek/serialization/_util.py` -/

/-- Translation of `_check_contains_null`: only `bytes` values are
inspected.  In Python 3 iterating a `bytes` object yields integers, so
the loop compares each byte against `0`; every non-bytes value skips
the loop and the function returns `False`. -/
def _check_contains_null : PyVal → Bool
  | .bytes bs => bs.any fun b => b == 0
  | _ => false

/-- Translation of `ensure_unicode_string_type`: a bytes value is
decoded as UTF-8 (a failure surfaces Python's `UnicodeDecodeError`,
represented here as `decodeError`); any other value is coerced with
`str`. -/
def ensure_unicode_string_type : PyVal → Except KtkError String
  | .bytes bs =>
    match utf8ToStr bs with
    | some s => .ok s
    | none => .error .decodeError
  | .text s => .ok s
  | .int n => .ok (toString n)
  | .pyNone => .ok "None"

/-- Modelled from the spec: the validation step of §7 that rejects a
partition/index value with `ValidationError` when
`_check_contains_null` reports a null byte.  The rejecting caller is
not part of the source tree; only `_check_contains_null` is. -/
def validateValue (v : PyVal) : Except KtkError PyVal :=
  if _check_contains_null v then .error .validationError else .ok v

/-! ## Partition key codec

Modelled from the spec (§4.1); `kartothek/core/urlencode.py` is not in
the source tree, only its tests are. -/

/-- Bytes that survive percent-encoding unescaped, as in
`urllib.parse.quote` with `safe=""`: ASCII letters, digits, and the
characters `-`, `.`, `_`, `~`. -/
def isUnreserved (b : Nat) : Bool :=
  (65 ≤ b && b ≤ 90) || (97 ≤ b && b ≤ 122) || (48 ≤ b && b ≤ 57) ||
    b == 45 || b == 46 || b == 95 || b == 126

/-- Upper-case hexadecimal digit character for a value below 16. -/
def hexDigit (n : Nat) : Char :=
  if n < 10 then Char.ofNat (48 + n) else Char.ofNat (55 + n)

/-- Percent-encode one byte: unreserved bytes stand for themselves,
everything else becomes `%XX`. -/
def quoteByte (b : Nat) : List Char :=
  if isUnreserved b then [Char.ofNat b]
  else ['%', hexDigit (b / 16), hexDigit (b % 16)]

/-- Modelled from the spec (§4.1): percent-encode the UTF-8 bytes of a
string so that `/`, `=`, space and non-ASCII bytes are all escaped. -/
def percentQuote (s : String) : String :=
  String.mk ((strToUtf8 s).map quoteByte).flatten

/-- Hexadecimal digit value of a character, upper or lower case. -/
def hexVal (c : Char) : Option Nat :=
  if 48 ≤ c.toNat ∧ c.toNat ≤ 57 then some (c.toNat - 48)
  else if 65 ≤ c.toNat ∧ c.toNat ≤ 70 then some (c.toNat - 55)
  else if 97 ≤ c.toNat ∧ c.toNat ≤ 102 then some (c.toNat - 87)
  else none

mutual

/-- Percent-decode a character list into bytes: a `%XX` escape becomes
one byte, any other character contributes its own UTF-8 bytes; a
malformed escape fails. -/
def percentUnquoteBytes : List Char → Option (List Nat)
  | [] => some []
  | c :: rest =>
    if c = '%' then percentUnquoteEsc rest
    else (percentUnquoteBytes rest).map fun bs => utf8EncodeNat c.toNat ++ bs

/-- Decode the two hex digits following a `%` and continue. -/
def percentUnquoteEsc : List Char → Option (List Nat)
  | a :: b :: rest =>
    (hexVal a).bind fun ha =>
      (hexVal b).bind fun hb =>
        (percentUnquoteBytes rest).map fun bs => (16 * ha + hb) :: bs
  | _ => none

end

/-- Turn an optional value into an `Except` with the given error. -/
def optExcept (o : Option α) (e : KtkError) : Except KtkError α :=
  match o with
  | some a => .ok a
  | none => .error e

/-- Modelled from the spec (§4.1): `unquote` percent-decodes and then
interprets the resulting bytes as UTF-8 text; it fails with
`DecodeError` when the percent-encoding is malformed or the decoded
bytes are not valid UTF-8. -/
def unquote (s : String) : Except KtkError String :=
  (optExcept (percentUnquoteBytes s.data) .decodeError).bind fun bs =>
    optExcept (utf8ToStr bs) .decodeError

/-- Modelled from the spec (§4.1): `quote` coerces the value to text
(integers via their canonical string form, raw bytes by decoding them
as UTF-8) and percent-encodes the result.  The coercion is the same
one `ensure_unicode_string_type` performs. -/
def quote (v : PyVal) : Except KtkError String :=
  (ensure_unicode_string_type v).map percentQuote

/-- Modelled from the spec (§4.1): quote column and value of each pair
independently and join them with `=`. -/
def quote_indices (pairs : List (PyVal × PyVal)) : Except KtkError (List String) :=
  pairs.mapM fun p =>
    (quote p.1).bind fun c => (quote p.2).map fun v => c ++ "=" ++ v

/-- Split a character list at the first occurrence of `=`, failing when
there is none. -/
def splitEq : List Char → Option (List Char × List Char)
  | [] => none
  | c :: rest =>
    if c = '=' then some ([], rest)
    else (splitEq rest).map fun p => (c :: p.1, p.2)

/-- Modelled from the spec (§4.1): split each string on its `=` (there
must be exactly one) and unquote both halves; otherwise fail with
`DecodeError`. -/
def unquote_indices (strs : List String) : Except KtkError (List (String × String)) :=
  strs.mapM fun s =>
    (optExcept (splitEq s.data) .decodeError).bind fun p =>
      if '=' ∈ p.2 then .error .decodeError
      else (unquote (String.mk p.1)).bind fun c =>
        (unquote (String.mk p.2)).map fun v => (c, v)

/-- Modelled from the spec (§4.1): the store-key layout
`"{dataset_id}/{table}/{quoted pairs joined by /}/{filename}"`.  The
default filename used by callers is `"data"`. -/
def create_partition_key (dataset_id table : String) (pairs : List (PyVal × PyVal))
    (filename : String) : Except KtkError String :=
  (quote_indices pairs).map fun qs =>
    dataset_id ++ "/" ++ table ++ "/" ++ String.intercalate "/" qs ++ "/" ++ filename

/-! ## Round-trip lemmas for the codec -/

lemma toNat_ofNatAux {n : Nat} (h : n.isValidChar) : (Char.ofNatAux n h).toNat = n := by
  simp [Char.ofNatAux, Char.toNat, UInt32.toNat]

lemma toNat_charOfNat {n : Nat} (h : n.isValidChar) : (Char.ofNat n).toNat = n := by
  unfold Char.ofNat
  rw [dif_pos h]
  exact toNat_ofNatAux h

lemma isUnreserved_lt {b : Nat} (h : isUnreserved b = true) : b < 0x80 := by
  simp only [isUnreserved, Bool.or_eq_true, Bool.and_eq_true, decide_eq_true_eq,
    beq_iff_eq] at h
  omega

lemma validChar_of_lt {b : Nat} (h : b < 0xd800) : b.isValidChar := Or.inl h

lemma hexVal_hexDigit {n : Nat} (h : n < 16) : hexVal (hexDigit n) = some n := by
  unfold hexDigit
  split_ifs with h1
  · unfold hexVal
    rw [toNat_charOfNat (validChar_of_lt (by omega))]
    rw [if_pos (by omega)]
    simp only [Option.some.injEq]
    omega
  · unfold hexVal
    rw [toNat_charOfNat (validChar_of_lt (by omega))]
    rw [if_neg (by omega), if_pos (by omega)]
    simp only [Option.some.injEq]
    omega

lemma charOfNat_ne_percent {b : Nat} (hb : isUnreserved b = true) : Char.ofNat b ≠ '%' := by
  intro he
  have h1 : (Char.ofNat b).toNat = b := toNat_charOfNat (validChar_of_lt (by
    have := isUnreserved_lt hb; omega))
  rw [he] at h1
  have : b = 37 := by simpa using h1.symm
  rw [this] at hb
  simp [isUnreserved] at hb

lemma hexDigit_ne_percent {n : Nat} (h : n < 16) : hexDigit n ≠ '%' := by
  intro he
  have h1 : (hexDigit n).toNat = 37 := by rw [he]; rfl
  unfold hexDigit at h1
  split_ifs at h1 <;> rw [toNat_charOfNat (validChar_of_lt (by omega))] at h1 <;> omega

lemma utf8EncodeNat_ascii {b : Nat} (h : b < 0x80) : utf8EncodeNat b = [b] := by
  unfold utf8EncodeNat
  rw [if_pos h]

lemma percentUnquote_quoteBytes (bs : List Nat) (h : ∀ b ∈ bs, b < 256) :
    percentUnquoteBytes ((bs.map quoteByte).flatten) = some bs := by
  induction bs with
  | nil => rfl
  | cons b bs ih =>
    have hb : b < 256 := h b (List.mem_cons_self b bs)
    have ihh := ih fun x hx => h x (List.mem_cons_of_mem b hx)
    simp only [List.map_cons, List.flatten_cons]
    by_cases hu : isUnreserved b = true
    · rw [show quoteByte b = [Char.ofNat b] from by unfold quoteByte; rw [if_pos hu]]
      simp only [List.cons_append, List.nil_append]
      rw [percentUnquoteBytes]
      rw [if_neg (charOfNat_ne_percent hu)]
      rw [ihh]
      rw [Option.map_some']
      rw [toNat_charOfNat (validChar_of_lt (by have := isUnreserved_lt hu; omega))]
      rw [utf8EncodeNat_ascii (isUnreserved_lt hu)]
      rfl
    · rw [show quoteByte b = ['%', hexDigit (b / 16), hexDigit (b % 16)] from by
        unfold quoteByte; rw [if_neg hu]]
      simp only [List.cons_append, List.nil_append]
      rw [percentUnquoteBytes]
      rw [if_pos rfl]
      rw [percentUnquoteEsc]
      rw [hexVal_hexDigit (by omega), hexVal_hexDigit (by omega)]
      rw [Option.some_bind, Option.some_bind]
      rw [ihh]
      rw [Option.map_some']
      simp only [Option.some.injEq, List.cons.injEq, and_true]
      omega

lemma strToUtf8_lt_256 (s : String) : ∀ b ∈ strToUtf8 s, b < 256 := by
  intro b hb
  unfold strToUtf8 at hb
  rw [List.mem_flatten] at hb
  obtain ⟨l, hl, hbl⟩ := hb
  rw [List.mem_map] at hl
  obtain ⟨c, _, rfl⟩ := hl
  exact utf8EncodeNat_lt_256 (char_toNat_lt c) b hbl

lemma ok_bind {α β : Type} (a : α) (f : α → Except KtkError β) :
    (Except.ok a : Except KtkError α).bind f = f a := rfl

lemma ok_map {α β : Type} (a : α) (f : α → β) :
    (Except.ok a : Except KtkError α).map f = .ok (f a) := rfl

lemma optExcept_some {α : Type} (a : α) (e : KtkError) : optExcept (some a) e = .ok a := rfl

lemma percentQuote_data (s : String) :
    (percentQuote s).data = ((strToUtf8 s).map quoteByte).flatten := rfl

lemma unquote_percentQuote (s : String) : unquote (percentQuote s) = .ok s := by
  unfold unquote
  rw [percentQuote_data, percentUnquote_quoteBytes _ (strToUtf8_lt_256 s)]
  rw [optExcept_some, ok_bind, utf8ToStr_strToUtf8, optExcept_some]

lemma quoteByte_ne_eqChar {b : Nat} (hb : b < 256) : ∀ c ∈ quoteByte b, c ≠ '=' := by
  intro c hc
  unfold quoteByte at hc
  split_ifs at hc with hu
  · simp only [List.mem_singleton] at hc
    subst hc
    intro he
    have h1 : (Char.ofNat b).toNat = b := toNat_charOfNat (validChar_of_lt (by
      have := isUnreserved_lt hu; omega))
    rw [he] at h1
    have : b = 61 := by simpa using h1.symm
    rw [this] at hu
    simp [isUnreserved] at hu
  · simp only [List.mem_cons, List.not_mem_nil, or_false] at hc
    rcases hc with rfl | rfl | rfl
    · decide
    · intro he
      have h1 : (hexDigit (b / 16)).toNat = 61 := by rw [he]; rfl
      unfold hexDigit at h1
      split_ifs at h1 <;> rw [toNat_charOfNat (validChar_of_lt (by omega))] at h1 <;> omega
    · intro he
      have h1 : (hexDigit (b % 16)).toNat = 61 := by rw [he]; rfl
      unfold hexDigit at h1
      split_ifs at h1 <;> rw [toNat_charOfNat (validChar_of_lt (by omega))] at h1 <;> omega

lemma eqChar_not_mem_percentQuote (s : String) : '=' ∉ (percentQuote s).data := by
  rw [percentQuote_data]
  intro hm
  rw [List.mem_flatten] at hm
  obtain ⟨l, hl, hel⟩ := hm
  rw [List.mem_map] at hl
  obtain ⟨b, hb, rfl⟩ := hl
  exact quoteByte_ne_eqChar (strToUtf8_lt_256 s b hb) '=' hel rfl

lemma splitEq_append {a : List Char} (b : List Char) (h : '=' ∉ a) :
    splitEq (a ++ '=' :: b) = some (a, b) := by
  induction a with
  | nil =>
    simp only [List.nil_append]
    rw [splitEq]
    rw [if_pos rfl]
  | cons c a ih =>
    have hc : c ≠ '=' := fun he => h (he ▸ List.mem_cons_self c a)
    have ha : '=' ∉ a := fun hm => h (List.mem_cons_of_mem c hm)
    simp only [List.cons_append]
    rw [splitEq]
    rw [if_neg hc, ih ha, Option.map_some']

/-- Coercion of one (column, value) pair to its text form, applying
`ensure_unicode_string_type` to both components. -/
def normPair (p : PyVal × PyVal) : Except KtkError (String × String) :=
  (ensure_unicode_string_type p.1).bind fun c =>
    (ensure_unicode_string_type p.2).map fun v => (c, v)

lemma bind_ok {α β : Type} (a : α) (f : α → Except KtkError β) :
    ((Except.ok a : Except KtkError α) >>= f) = f a := rfl

lemma pure_eq_ok {α : Type} (a : α) : (pure a : Except KtkError α) = .ok a := rfl

lemma error_bind {α β : Type} (e : KtkError) (f : α → Except KtkError β) :
    ((Except.error e : Except KtkError α) >>= f) = .error e := rfl

lemma error_bindE {α β : Type} (e : KtkError) (f : α → Except KtkError β) :
    (Except.error e : Except KtkError α).bind f = .error e := rfl

lemma error_map {α β : Type} (e : KtkError) (f : α → β) :
    Except.map f (Except.error e : Except KtkError α) = .error e := rfl

lemma map_ok {α β : Type} (a : α) (f : α → β) :
    (f <$> (Except.ok a : Except KtkError α)) = .ok (f a) := rfl

lemma mapM_loop_eq {α β : Type} (f : α → Except KtkError β) (l : List α) :
    List.mapM.loop f l [] = l.mapM f := rfl

lemma quote_ok {v : PyVal} {t : String} (h : ensure_unicode_string_type v = .ok t) :
    quote v = .ok (percentQuote t) := by
  unfold quote
  rw [h]
  rfl

lemma quoted_pair_data (tc tv : String) :
    (percentQuote tc ++ "=" ++ percentQuote tv).data
      = (percentQuote tc).data ++ '=' :: (percentQuote tv).data := by
  rw [String.data_append, String.data_append]
  simp [List.append_assoc]

lemma unquote_entry (tc tv : String) :
    (optExcept (splitEq (percentQuote tc ++ "=" ++ percentQuote tv).data) .decodeError).bind
      (fun p =>
        if '=' ∈ p.2 then .error .decodeError
        else (unquote (String.mk p.1)).bind fun c2 =>
          (unquote (String.mk p.2)).map fun v2 => (c2, v2)) = .ok (tc, tv) := by
  rw [quoted_pair_data, splitEq_append _ (eqChar_not_mem_percentQuote tc), optExcept_some,
    ok_bind]
  rw [if_neg (eqChar_not_mem_percentQuote tv)]
  show (unquote (percentQuote tc)).bind _ = _
  rw [unquote_percentQuote, ok_bind]
  show (unquote (percentQuote tv)).map _ = _
  rw [unquote_percentQuote, ok_map]

lemma unquote_indices_quoted (texts : List (String × String)) :
    unquote_indices (texts.map fun t => percentQuote t.1 ++ "=" ++ percentQuote t.2)
      = .ok texts := by
  induction texts with
  | nil => rfl
  | cons t texts ih =>
    simp only [List.map_cons]
    unfold unquote_indices
    rw [List.mapM_cons]
    unfold unquote_indices at ih
    rw [unquote_entry t.1 t.2, bind_ok, ih, bind_ok, pure_eq_ok]

lemma quote_indices_ok (pairs : List (PyVal × PyVal)) (texts : List (String × String))
    (h : pairs.mapM normPair = .ok texts) :
    quote_indices pairs
      = .ok (texts.map fun t => percentQuote t.1 ++ "=" ++ percentQuote t.2) := by
  induction pairs generalizing texts with
  | nil =>
    rw [List.mapM_nil, pure_eq_ok] at h
    cases h
    rfl
  | cons p pairs ih =>
    rw [List.mapM_cons] at h
    cases hc : ensure_unicode_string_type p.1 with
    | error e =>
      rw [show normPair p = .error e from by unfold normPair; rw [hc, error_bindE]] at h
      rw [error_bind] at h
      simp at h
    | ok tc =>
      cases hv : ensure_unicode_string_type p.2 with
      | error e =>
        rw [show normPair p = .error e from by
          unfold normPair; rw [hc, ok_bind, hv, error_map]] at h
        rw [error_bind] at h
        simp at h
      | ok tv =>
        rw [show normPair p = .ok (tc, tv) from by
          unfold normPair; rw [hc, ok_bind, hv, ok_map]] at h
        rw [bind_ok] at h
        cases hr : pairs.mapM normPair with
        | error e =>
          rw [hr, error_bind] at h
          simp at h
        | ok texts2 =>
          rw [hr, bind_ok, pure_eq_ok] at h
          cases h
          unfold quote_indices
          rw [List.mapM_cons]
          rw [quote_ok hc, ok_bind, quote_ok hv, ok_map, bind_ok]
          unfold quote_indices at ih
          rw [ih texts2 hr, bind_ok, pure_eq_ok, List.map_cons]

/-- Input pairs of the round-trip scenario: an integer column with a
bytes value, text columns with bytes, and text columns with non-ASCII
text values. -/
def roundtripPairs : List (PyVal × PyVal) :=
  [(.int 1, .bytes [77, 117, 101, 110, 99, 104, 101, 110]),
   (.text "location", .bytes [77, 117, 101, 110, 99, 104, 101, 110]),
   (.text "location", .text "München"),
   (.text "product", .text "å\\ øß")]

/-- Text form of `roundtripPairs` after coercion. -/
def roundtripTexts : List (String × String) :=
  [("1", "Muenchen"), ("location", "Muenchen"), ("location", "München"),
   ("product", "å\\ øß")]

/-- C1 (amended): for every sequence of (column, value) pairs whose
components all coerce to text — text values, integer values, and bytes
values that are valid UTF-8 — `unquote_indices (quote_indices pairs)`
returns exactly the column names and values coerced to their text
form, independent of the original value type; in particular the value
`"München"` quotes to the key segment `"location=M%C3%BCnchen"` and
unquotes back to `"München"`.  (The claim's original precondition,
bytes free of null bytes, is not enough: bytes that are not valid
UTF-8 make quoting fail, see the counterexample.) -/
theorem unquote_quote_roundtrip :
    (∀ (pairs : List (PyVal × PyVal)) (texts : List (String × String)),
        pairs.mapM normPair = .ok texts →
        (quote_indices pairs).bind unquote_indices = .ok texts) ∧
    quote_indices [(.text "location", .text "München")] = .ok ["location=M%C3%BCnchen"] ∧
    unquote_indices ["location=M%C3%BCnchen"] = .ok [("location", "München")] := by
  refine ⟨fun pairs texts h => ?_, rfl, rfl⟩
  rw [quote_indices_ok pairs texts h, ok_bind]
  exact unquote_indices_quoted texts

/-- C1 counterexample: the pair `("location", b"\xC3")` has a bytes
value of the permitted type containing no null byte, yet the
round-trip does not return the pairs with values coerced to text — it
fails, because the bytes are not valid UTF-8 and quoting already
fails. -/
theorem quote_roundtrip_fails_on_invalid_utf8_bytes :
    (quote_indices [(.text "location", .bytes [0xC3])]).bind unquote_indices
      = .error .decodeError := rfl

/-- Witness for C1: the round-trip evaluated on the concrete pairs of
the test suite. -/
theorem unquote_quote_roundtrip_witness :
    roundtripPairs.mapM normPair = .ok roundtripTexts ∧
    (quote_indices roundtripPairs).bind unquote_indices = .ok roundtripTexts :=
  ⟨rfl, unquote_quote_roundtrip.1 roundtripPairs roundtripTexts rfl⟩

/-- C7: `create_partition_key` produces
`"{dataset_id}/{table}/{quoted col=val segments joined by /}/{filename}"`,
and on the concrete test input it yields
`"my-uuid/testtable/index1=value1/index2=value2/data"`. -/
theorem create_partition_key_layout :
    (∀ (d t : String) (pairs : List (PyVal × PyVal)) (f : String) (qs : List String),
        quote_indices pairs = .ok qs →
        create_partition_key d t pairs f
          = .ok (d ++ "/" ++ t ++ "/" ++ String.intercalate "/" qs ++ "/" ++ f)) ∧
    create_partition_key "my-uuid" "testtable"
        [(.text "index1", .text "value1"), (.text "index2", .text "value2")] "data"
      = .ok "my-uuid/testtable/index1=value1/index2=value2/data" := by
  refine ⟨fun d t pairs f qs h => ?_, rfl⟩
  unfold create_partition_key
  rw [h, ok_map]

/-- Witness for C7: the general layout equation evaluated on the
concrete test input. -/
theorem create_partition_key_layout_witness :
    quote_indices [(.text "index1", .text "value1"), (.text "index2", .text "value2")]
      = .ok ["index1=value1", "index2=value2"] ∧
    create_partition_key "my-uuid" "testtable"
        [(.text "index1", .text "value1"), (.text "index2", .text "value2")] "data"
      = .ok ("my-uuid" ++ "/" ++ "testtable" ++ "/"
          ++ String.intercalate "/" ["index1=value1", "index2=value2"] ++ "/" ++ "data") :=
  ⟨rfl, create_partition_key_layout.1 "my-uuid" "testtable"
    [(.text "index1", .text "value1"), (.text "index2", .text "value2")] "data"
    ["index1=value1", "index2=value2"] rfl⟩

/-- C10: `_check_contains_null` returns `false` for every value that is
not of bytes type — including a text string containing the character
U+0000 — and for a bytes value it returns `true` exactly when some
byte equals zero. -/
theorem check_contains_null_spec :
    (∀ s : String, _check_contains_null (.text s) = false) ∧
    (∀ n : Int, _check_contains_null (.int n) = false) ∧
    _check_contains_null .pyNone = false ∧
    _check_contains_null (.text "\x00") = false ∧
    (∀ bs : List Nat, _check_contains_null (.bytes bs) = true ↔ 0 ∈ bs) := by
  refine ⟨fun s => rfl, fun n => rfl, rfl, rfl, fun bs => ?_⟩
  show (bs.any fun b => b == 0) = true ↔ 0 ∈ bs
  rw [List.any_eq_true]
  constructor
  · rintro ⟨b, hb, he⟩
    rw [beq_iff_eq] at he
    rw [he] at hb
    exact hb
  · intro hb
    exact ⟨0, hb, by simp⟩

/-- C6 counterexample: a text value consisting of the single character
U+0000 contains a null byte in its encoded form, yet the validation
step does not reject it — `_check_contains_null` only inspects bytes
values, so the text value passes validation untouched. -/
theorem check_contains_null_misses_text_null :
    validateValue (.text "\x00") = .ok (.text "\x00") := rfl

/-- C6 (amended): for every raw-bytes value containing a null byte,
the validation step detects it and rejects the value with
`ValidationError` before quoting is attempted; text values are not
inspected by this check. -/
theorem null_byte_validation_bytes_only :
    (∀ bs : List Nat, 0 ∈ bs → validateValue (.bytes bs) = .error .validationError) ∧
    (∀ s : String, validateValue (.text s) = .ok (.text s)) := by
  refine ⟨fun bs hb => ?_, fun s => rfl⟩
  unfold validateValue
  rw [if_pos]
  exact (check_contains_null_spec.2.2.2.2 bs).mpr hb

/-- Witness for C6: the null byte is detected in the concrete bytes
value `[0]`. -/
theorem null_byte_validation_bytes_only_witness :
    (0 ∈ [0] ∧ validateValue (.bytes [0]) = .error .validationError) ∧
    validateValue (.text "a") = .ok (.text "a") :=
  ⟨⟨List.mem_singleton.mpr rfl,
    null_byte_validation_bytes_only.1 [0] (List.mem_singleton.mpr rfl)⟩,
   null_byte_validation_bytes_only.2 "a"⟩

/-- C9 counterexample: `None` is a value whose type is neither text,
raw bytes, nor integer, yet `ensure_unicode_string_type` does not
reject it with `ValidationError`. -/
theorem ensure_unicode_no_validation_error :
    ensure_unicode_string_type .pyNone ≠ .error .validationError := by
  intro h
  simp [ensure_unicode_string_type] at h

/-- C9 (amended): the normalization at the codec boundary coerces a
value of any non-bytes type to its `str` text form instead of
rejecting it: text stays itself, integers become their decimal form,
and `None` becomes the string `"None"`; no `ValidationError` is ever
raised. -/
theorem ensure_unicode_coerces_other_types :
    (∀ s : String, ensure_unicode_string_type (.text s) = .ok s) ∧
    (∀ n : Int, ensure_unicode_string_type (.int n) = .ok (toString n)) ∧
    ensure_unicode_string_type .pyNone = .ok "None" :=
  ⟨fun _ => rfl, fun _ => rfl, rfl⟩

/-! ## Compressed metadata codec

`kartothek/core/_zmsgpack.py` composes the external `msgpack` and
`zstandard` libraries: `packb` serializes and compresses, `unpackb`
decompresses and deserializes with `raw=False` so that strings come
back as text.  The two libraries themselves are not part of the
repository; they are modelled from the spec (§4.2): a compact binary
object format for nested mappings/sequences/scalars, and a compressor
whose frame carries a magic header and the uncompressed content size.
The compression transform itself is modelled as the identity on the
payload, which the spec leaves abstract. -/

/-- Values of the object serialization format: nil, booleans,
integers, text strings, byte strings, sequences and mappings. -/
inductive MsgVal where
  | nil
  | bool (b : Bool)
  | int (n : Int)
  | str (s : String)
  | bin (bs : List Nat)
  | arr (xs : List MsgVal)
  | map (kvs : List (MsgVal × MsgVal))

/-- Variable-length encoding of a natural number in little-endian
base-128 chunks; all produced bytes are below 256. -/
def encVarint (n : Nat) : List Nat :=
  if h : n < 128 then [n]
  else (n % 128 + 128) :: encVarint (n / 128)
  termination_by n
  decreasing_by exact Nat.div_lt_self (by omega) (by omega)

/-- Decode a variable-length natural; only the canonical encoding is
accepted (no zero continuation chunk, every byte below 256). -/
def decVarint : List Nat → Option (Nat × List Nat)
  | [] => none
  | b :: rest =>
    if b < 128 then some (b, rest)
    else if b < 256 then
      (decVarint rest).bind fun p =>
        if p.1 = 0 then none else some (b - 128 + 128 * p.1, p.2)
    else none

/-- Signed-to-unsigned zigzag transform for integer encoding. -/
def zigzag (n : Int) : Nat :=
  if 0 ≤ n then 2 * n.toNat else 2 * (-n).toNat - 1

/-- Inverse of `zigzag`. -/
def unzigzag (z : Nat) : Int :=
  if z % 2 = 0 then ((z / 2 : Nat) : Int) else -((((z + 1) / 2 : Nat)) : Int)

mutual

/-- Binary encoding of one object-format value: a tag byte followed by
the payload; strings are encoded as their UTF-8 bytes, sequences and
mappings by their length and the concatenated element encodings. -/
def msgEncode : MsgVal → List Nat
  | .nil => [0]
  | .bool false => [1]
  | .bool true => [2]
  | .int n => 3 :: encVarint (zigzag n)
  | .str s => 4 :: (encVarint (strToUtf8 s).length ++ strToUtf8 s)
  | .bin bs => 5 :: (encVarint bs.length ++ bs)
  | .arr xs => 6 :: (encVarint xs.length ++ msgEncodeList xs)
  | .map kvs => 7 :: (encVarint kvs.length ++ msgEncodeKVs kvs)

/-- Concatenated encodings of a sequence of values. -/
def msgEncodeList : List MsgVal → List Nat
  | [] => []
  | x :: xs => msgEncode x ++ msgEncodeList xs

/-- Concatenated encodings of the key/value pairs of a mapping. -/
def msgEncodeKVs : List (MsgVal × MsgVal) → List Nat
  | [] => []
  | (k, v) :: ps => msgEncode k ++ (msgEncode v ++ msgEncodeKVs ps)

end

mutual

/-- Decode one object-format value from the front of a byte list.
`fuel` bounds the nesting depth; strings are decoded back to text via
strict UTF-8 (the `raw=False` behaviour of the deserializer). -/
def msgDecode : Nat → List Nat → Option (MsgVal × List Nat)
  | 0, _ => none
  | _ + 1, [] => none
  | fuel + 1, t :: rest =>
    if t = 0 then some (.nil, rest)
    else if t = 1 then some (.bool false, rest)
    else if t = 2 then some (.bool true, rest)
    else if t = 3 then (decVarint rest).map fun p => (.int (unzigzag p.1), p.2)
    else if t = 4 then
      (decVarint rest).bind fun p =>
        if p.1 ≤ p.2.length then
          (utf8ToStr (p.2.take p.1)).map fun s => (.str s, p.2.drop p.1)
        else none
    else if t = 5 then
      (decVarint rest).bind fun p =>
        if p.1 ≤ p.2.length then some (.bin (p.2.take p.1), p.2.drop p.1) else none
    else if t = 6 then
      (decVarint rest).bind fun p =>
        (msgDecodeList fuel p.1 p.2).map fun q => (.arr q.1, q.2)
    else if t = 7 then
      (decVarint rest).bind fun p =>
        (msgDecodeKVs fuel p.1 p.2).map fun q => (.map q.1, q.2)
    else none

/-- Decode a given number of sequence elements. -/
def msgDecodeList : Nat → Nat → List Nat → Option (List MsgVal × List Nat)
  | _, 0, bytes => some ([], bytes)
  | fuel, n + 1, bytes =>
    (msgDecode fuel bytes).bind fun p =>
      (msgDecodeList fuel n p.2).map fun q => (p.1 :: q.1, q.2)

/-- Decode a given number of mapping entries. -/
def msgDecodeKVs : Nat → Nat → List Nat → Option (List (MsgVal × MsgVal) × List Nat)
  | _, 0, bytes => some ([], bytes)
  | fuel, n + 1, bytes =>
    (msgDecode fuel bytes).bind fun p =>
      (msgDecode fuel p.2).bind fun p2 =>
        (msgDecodeKVs fuel n p2.2).map fun q => ((p.1, p2.1) :: q.1, q.2)

end

mutual

/-- Nesting depth of a value; the decoder needs this much fuel. -/
def mdepth : MsgVal → Nat
  | .nil => 1
  | .bool _ => 1
  | .int _ => 1
  | .str _ => 1
  | .bin _ => 1
  | .arr xs => mdepthL xs + 1
  | .map kvs => mdepthKV kvs + 1

/-- Maximal depth of the elements of a sequence. -/
def mdepthL : List MsgVal → Nat
  | [] => 0
  | x :: xs => max (mdepth x) (mdepthL xs)

/-- Maximal depth of the entries of a mapping. -/
def mdepthKV : List (MsgVal × MsgVal) → Nat
  | [] => 0
  | (k, v) :: ps => max (max (mdepth k) (mdepth v)) (mdepthKV ps)

end

lemma decVarint_encVarint (n : Nat) (rest : List Nat) :
    decVarint (encVarint n ++ rest) = some (n, rest) := by
  induction n using Nat.strong_induction_on with
  | _ n ih =>
    unfold encVarint
    split_ifs with h
    · simp only [List.cons_append, List.nil_append]
      rw [decVarint]
      rw [if_pos h]
    · simp only [List.cons_append]
      rw [decVarint]
      rw [if_neg (by omega), if_pos (by omega)]
      rw [ih (n / 128) (Nat.div_lt_self (by omega) (by omega))]
      rw [Option.some_bind]
      rw [if_neg (by omega)]
      simp only [Option.some.injEq, Prod.mk.injEq, and_true]
      omega

lemma decVarint_sound :
    ∀ (xs : List Nat) (n : Nat) (r : List Nat),
      decVarint xs = some (n, r) → xs = encVarint n ++ r := by
  intro xs
  induction xs with
  | nil => intro n r h; simp [decVarint] at h
  | cons b rest ih =>
    intro n r h
    rw [decVarint] at h
    split_ifs at h with h1 h2
    · simp only [Option.some.injEq, Prod.mk.injEq] at h
      obtain ⟨rfl, rfl⟩ := h
      rw [encVarint]
      rw [dif_pos h1]
      rfl
    · cases hv : decVarint rest with
      | none => rw [hv] at h; simp at h
      | some p =>
        rw [hv, Option.some_bind] at h
        split_ifs at h with h3
        simp only [Option.some.injEq, Prod.mk.injEq] at h
        obtain ⟨rfl, rfl⟩ := h
        have hrest := ih p.1 p.2 hv
        rw [encVarint]
        rw [dif_neg (by omega)]
        have hm : (b - 128 + 128 * p.1) % 128 = b - 128 := by omega
        have hd : (b - 128 + 128 * p.1) / 128 = p.1 := by omega
        rw [hm, hd]
        rw [hrest]
        simp only [List.cons_append, List.cons.injEq, and_true]
        omega

lemma unzigzag_zigzag (n : Int) : unzigzag (zigzag n) = n := by
  unfold zigzag unzigzag
  split_ifs with h1 h2 h3 <;> omega

lemma mdepth_pos (v : MsgVal) : 1 ≤ mdepth v := by
  cases v <;> simp [mdepth]

mutual

lemma msgDecode_encode (v : MsgVal) (rest : List Nat) (fuel : Nat) (hf : mdepth v ≤ fuel) :
    msgDecode fuel (msgEncode v ++ rest) = some (v, rest) := by
  cases fuel with
  | zero => exact absurd hf (by have := mdepth_pos v; omega)
  | succ f =>
    cases v with
    | nil =>
      simp only [msgEncode, List.cons_append, List.nil_append, msgDecode]
      norm_num
    | bool b =>
      cases b <;>
        (simp only [msgEncode, List.cons_append, List.nil_append, msgDecode]; norm_num)
    | int n =>
      simp only [msgEncode, List.cons_append, msgDecode]
      norm_num
      simp only [decVarint_encVarint]
      exact ⟨zigzag n, rfl, unzigzag_zigzag n⟩
    | str s =>
      simp only [msgEncode, List.cons_append, List.append_assoc, msgDecode]
      norm_num
      simp only [decVarint_encVarint, Option.some_bind]
      rw [if_pos (by simp)]
      simp only [List.take_left, List.drop_left, utf8ToStr_strToUtf8, Option.map_some']
    | bin bs =>
      simp only [msgEncode, List.cons_append, List.append_assoc, msgDecode]
      norm_num
      simp only [decVarint_encVarint, Option.some_bind]
      rw [if_pos (by simp)]
      simp only [List.take_left, List.drop_left]
    | arr xs =>
      simp only [msgEncode, List.cons_append, List.append_assoc, msgDecode]
      norm_num
      simp only [decVarint_encVarint, Option.some_bind]
      rw [msgDecodeList_encode xs rest f (by simp [mdepth] at hf; omega)]
      simp only [Option.map_some']
    | map kvs =>
      simp only [msgEncode, List.cons_append, List.append_assoc, msgDecode]
      norm_num
      simp only [decVarint_encVarint, Option.some_bind]
      rw [msgDecodeKVs_encode kvs rest f (by simp [mdepth] at hf; omega)]
      simp only [Option.map_some']

lemma msgDecodeList_encode (xs : List MsgVal) (rest : List Nat) (fuel : Nat)
    (hf : mdepthL xs ≤ fuel) :
    msgDecodeList fuel xs.length (msgEncodeList xs ++ rest) = some (xs, rest) := by
  cases xs with
  | nil =>
    simp only [msgEncodeList, List.nil_append, List.length_nil]
    simp only [msgDecodeList]
  | cons x xs =>
    have hx : mdepth x ≤ fuel := by simp [mdepthL] at hf; omega
    have hxs : mdepthL xs ≤ fuel := by simp [mdepthL] at hf; omega
    simp only [msgEncodeList, List.length_cons, List.append_assoc, msgDecodeList]
    rw [msgDecode_encode x _ fuel hx]
    simp only [Option.some_bind]
    rw [msgDecodeList_encode xs rest fuel hxs]
    simp only [Option.map_some']

lemma msgDecodeKVs_encode (ps : List (MsgVal × MsgVal)) (rest : List Nat) (fuel : Nat)
    (hf : mdepthKV ps ≤ fuel) :
    msgDecodeKVs fuel ps.length (msgEncodeKVs ps ++ rest) = some (ps, rest) := by
  cases ps with
  | nil =>
    simp only [msgEncodeKVs, List.nil_append, List.length_nil]
    simp only [msgDecodeKVs]
  | cons p ps =>
    obtain ⟨k, v⟩ := p
    have hk : mdepth k ≤ fuel := by simp [mdepthKV] at hf; omega
    have hv : mdepth v ≤ fuel := by simp [mdepthKV] at hf; omega
    have hps : mdepthKV ps ≤ fuel := by simp [mdepthKV] at hf; omega
    simp only [msgEncodeKVs, List.length_cons, List.append_assoc, msgDecodeKVs]
    rw [msgDecode_encode k _ fuel hk]
    simp only [Option.some_bind]
    rw [msgDecode_encode v _ fuel hv]
    simp only [Option.some_bind]
    rw [msgDecodeKVs_encode ps rest fuel hps]
    simp only [Option.map_some']

end

mutual

/-- Every value's depth is bounded by its encoded length (each nesting
level contributes at least its tag byte). -/
lemma mdepth_le_encode (v : MsgVal) : mdepth v ≤ (msgEncode v).length := by
  cases v with
  | nil => simp [mdepth, msgEncode]
  | bool b => cases b <;> simp [mdepth, msgEncode]
  | int n => simp [mdepth, msgEncode]
  | str s => simp [mdepth, msgEncode]
  | bin bs => simp [mdepth, msgEncode]
  | arr xs =>
    have h := mdepthL_le_encode xs
    simp only [mdepth, msgEncode, List.length_cons, List.length_append]
    omega
  | map kvs =>
    have h := mdepthKV_le_encode kvs
    simp only [mdepth, msgEncode, List.length_cons, List.length_append]
    omega

/-- Depth bound for sequences. -/
lemma mdepthL_le_encode (xs : List MsgVal) : mdepthL xs ≤ (msgEncodeList xs).length := by
  cases xs with
  | nil => simp [mdepthL, msgEncodeList]
  | cons x xs =>
    have h1 := mdepth_le_encode x
    have h2 := mdepthL_le_encode xs
    simp only [mdepthL, msgEncodeList, List.length_append]
    omega

/-- Depth bound for mappings. -/
lemma mdepthKV_le_encode (ps : List (MsgVal × MsgVal)) :
    mdepthKV ps ≤ (msgEncodeKVs ps).length := by
  cases ps with
  | nil => simp [mdepthKV, msgEncodeKVs]
  | cons p ps =>
    obtain ⟨k, v⟩ := p
    have h1 := mdepth_le_encode k
    have h2 := mdepth_le_encode v
    have h3 := mdepthKV_le_encode ps
    simp only [mdepthKV, msgEncodeKVs, List.length_append]
    omega

end

/-- Deserialize a complete byte list into one value; trailing bytes
make the stream invalid, mirroring the deserializer's extra-data
error. -/
def msgUnpack (d : List Nat) : Option MsgVal :=
  (msgDecode (d.length + 1) d).bind fun p => if p.2 = [] then some p.1 else none

lemma msgUnpack_encode (v : MsgVal) : msgUnpack (msgEncode v) = some v := by
  unfold msgUnpack
  have h := msgDecode_encode v [] ((msgEncode v).length + 1)
    (by have := mdepth_le_encode v; omega)
  rw [List.append_nil] at h
  rw [h, Option.some_bind, if_pos rfl]

/-- Leading magic bytes of the compressed frame. -/
def ZSTD_MAGIC : List Nat := [40, 181, 47, 253]

/-- Modelled from the spec (§4.2, the `zstandard` library is external):
the compressed frame is the magic header, the uncompressed content
size, and the payload; the compression transform itself is abstracted
as the identity. -/
def zstdCompress (data : List Nat) : List Nat :=
  ZSTD_MAGIC ++ (encVarint data.length ++ data)

/-- Modelled from the spec (§4.2): decompression checks the magic
header and the embedded content size and fails with `CorruptDataError`
when either is wrong. -/
def zstdDecompress (bts : List Nat) : Except KtkError (List Nat) :=
  if bts.take 4 = ZSTD_MAGIC then
    (optExcept (decVarint (bts.drop 4)) .corruptData).bind fun p =>
      if p.2.length = p.1 then .ok p.2 else .error .corruptData
  else .error .corruptData

/-- Translation of `packb` from `kartothek/core/_zmsgpack.py`:
serialize with the object codec, then compress with the content size
embedded in the frame. -/
def packb (obj : MsgVal) : List Nat :=
  zstdCompress (msgEncode obj)

/-- Translation of `unpackb` from `kartothek/core/_zmsgpack.py`:
decompress, then deserialize with strings decoded back to text
(`raw=False`); a bad frame surfaces `CorruptDataError`, an invalid
object stream `DeserializationError`. -/
def unpackb (bts : List Nat) : Except KtkError MsgVal :=
  (zstdDecompress bts).bind fun d => optExcept (msgUnpack d) .deserialization

lemma optExcept_none {α : Type} (e : KtkError) :
    optExcept (none : Option α) e = .error e := rfl

lemma zstdDecompress_compress (d : List Nat) :
    zstdDecompress (zstdCompress d) = .ok d := by
  unfold zstdCompress zstdDecompress
  rw [show (4 : Nat) = ZSTD_MAGIC.length from rfl, List.take_left, List.drop_left]
  rw [if_pos rfl]
  rw [decVarint_encVarint, optExcept_some, ok_bind]
  rw [if_pos rfl]

lemma zstdCompress_inj {d1 d2 : List Nat} (h : zstdCompress d1 = zstdCompress d2) :
    d1 = d2 := by
  have h1 := zstdDecompress_compress d1
  rw [h, zstdDecompress_compress] at h1
  simp only [Except.ok.injEq] at h1
  exact h1.symm

lemma zstdDecompress_error_eq (bts : List Nat) (e : KtkError)
    (h : zstdDecompress bts = .error e) : e = .corruptData := by
  unfold zstdDecompress at h
  split_ifs at h with hm
  · cases hv : decVarint (bts.drop 4) with
    | none =>
      rw [hv, optExcept_none, error_bindE] at h
      simp only [Except.error.injEq] at h
      exact h.symm
    | some p =>
      rw [hv, optExcept_some, ok_bind] at h
      split_ifs at h with hl
      simp only [Except.error.injEq] at h
      exact h.symm
  · simp only [Except.error.injEq] at h
    exact h.symm

lemma zstdDecompress_ok_iff (bts d : List Nat) :
    zstdDecompress bts = .ok d ↔ bts = zstdCompress d := by
  constructor
  · intro h
    unfold zstdDecompress at h
    split_ifs at h with hm
    cases hv : decVarint (bts.drop 4) with
    | none => rw [hv, optExcept_none, error_bindE] at h; simp at h
    | some p =>
      rw [hv, optExcept_some, ok_bind] at h
      split_ifs at h with hl
      simp only [Except.ok.injEq] at h
      subst h
      have hsound := decVarint_sound _ _ _ hv
      have hsplit : bts = bts.take 4 ++ bts.drop 4 := (List.take_append_drop 4 bts).symm
      rw [hsplit, hm, hsound]
      unfold zstdCompress
      rw [hl]
  · rintro rfl
    exact zstdDecompress_compress d

/-- C4: for every value representable in the object serialization
format — nested mappings, sequences and scalars — `unpackb (packb v)`
reproduces the original structure exactly; text strings travel through
the format as UTF-8 bytes and are decoded back to text. -/
theorem unpackb_packb_roundtrip (v : MsgVal) : unpackb (packb v) = .ok v := by
  unfold unpackb packb
  rw [zstdDecompress_compress, ok_bind, msgUnpack_encode, optExcept_some]

/-- C5: for every input byte string, `unpackb` fails with
`CorruptDataError` exactly when the input is not a well-formed
compressed frame (magic header plus matching embedded content size),
fails with `DeserializationError` exactly when the frame is well
formed but its payload is not a valid object-format stream, and
succeeds exactly when the frame is well formed and the payload
deserializes. -/
theorem unpackb_error_characterization (bts : List Nat) :
    (unpackb bts = .error .corruptData ↔ ¬ ∃ d, bts = zstdCompress d) ∧
    (unpackb bts = .error .deserialization ↔
      ∃ d, bts = zstdCompress d ∧ msgUnpack d = none) ∧
    (∀ v : MsgVal, unpackb bts = .ok v ↔
      ∃ d, bts = zstdCompress d ∧ msgUnpack d = some v) := by
  unfold unpackb
  cases hz : zstdDecompress bts with
  | error e =>
    have he := zstdDecompress_error_eq bts e hz
    subst he
    rw [error_bindE]
    have hnc : ¬ ∃ d, bts = zstdCompress d := by
      rintro ⟨d, rfl⟩
      rw [zstdDecompress_compress] at hz
      simp at hz
    refine ⟨⟨fun _ => hnc, fun _ => rfl⟩, ⟨?_, ?_⟩, fun v => ⟨?_, ?_⟩⟩
    · intro h
      simp at h
    · rintro ⟨d, rfl, _⟩
      rw [zstdDecompress_compress] at hz
      simp at hz
    · intro h
      simp at h
    · rintro ⟨d, rfl, _⟩
      rw [zstdDecompress_compress] at hz
      simp at hz
  | ok d =>
    rw [ok_bind]
    have hc : bts = zstdCompress d := (zstdDecompress_ok_iff bts d).mp hz
    cases hu : msgUnpack d with
    | none =>
      rw [optExcept_none]
      refine ⟨⟨?_, ?_⟩, ⟨fun _ => ⟨d, hc, hu⟩, fun _ => rfl⟩, fun v => ⟨?_, ?_⟩⟩
      · intro h
        simp at h
      · intro hn
        exact (hn ⟨d, hc⟩).elim
      · intro h
        simp at h
      · rintro ⟨d2, hc2, hu2⟩
        have hdd : d = d2 := zstdCompress_inj (hc.symm.trans hc2)
        subst hdd
        rw [hu] at hu2
        cases hu2
    | some v0 =>
      rw [optExcept_some]
      refine ⟨⟨?_, ?_⟩, ⟨?_, ?_⟩, fun v => ⟨?_, ?_⟩⟩
      · intro h
        simp at h
      · intro hn
        exact (hn ⟨d, hc⟩).elim
      · intro h
        simp at h
      · rintro ⟨d2, hc2, hu2⟩
        have hdd : d = d2 := zstdCompress_inj (hc.symm.trans hc2)
        subst hdd
        rw [hu] at hu2
        cases hu2
      · intro h
        simp only [Except.ok.injEq] at h
        subst h
        exact ⟨d, hc, hu⟩
      · rintro ⟨d2, hc2, hu2⟩
        have hdd : d = d2 := zstdCompress_inj (hc.symm.trans hc2)
        subst hdd
        rw [hu] at hu2
        simp only [Option.some.injEq] at hu2
        rw [hu2]

/-! ## Store key scanner and dataset metadata model

Modelled from the spec (§4.3–§4.5); `kartothek/core/dataset.py` and
`kartothek/core/naming.py` are not in the source tree, only their
tests are. -/

/-- Split a character list at every occurrence of `sep`; the result is
always nonempty, and rejoining it with `sep` restores the input. -/
def splitOnChar (sep : Char) : List Char → List (List Char)
  | [] => [[]]
  | c :: rest =>
    if c = sep then [] :: splitOnChar sep rest
    else
      match splitOnChar sep rest with
      | s :: ss => (c :: s) :: ss
      | [] => [[c]]

/-- Strip `pre` from the front of `l`, or fail. -/
def dropPre (pre l : List Char) : Option (List Char) :=
  if pre <+: l then some (l.drop pre.length) else none

/-- Recognized data-file suffix of partition file names. -/
def PARQUET_SUFFIX : List Char := ".parquet".data

/-- Modelled from the spec (§4.3): parse one store key for a given
dataset and table.  The key must lie under `"{dataset_id}/{table}/"`;
the remainder must split on `/` into zero or more `column=value`
segments (each with exactly one `=`) followed by one filename segment
bearing the recognized data-file suffix.  The partition label is the
`/`-joined quoted segments with the suffix-stripped basename; any
other key is garbage and yields `none`. -/
def parsePartitionKey (dataset_id table : String) (key : String) : Option String :=
  (dropPre (dataset_id.data ++ '/' :: (table.data ++ ['/'])) key.data).bind fun rest =>
    let segs := splitOnChar '/' rest
    segs.getLast?.bind fun fname =>
      if segs.dropLast.all (fun seg => seg.count '=' == 1) then
        if PARQUET_SUFFIX <:+ fname then
          some (String.mk (List.intercalate ['/']
            (segs.dropLast ++ [fname.take (fname.length - PARQUET_SUFFIX.length)])))
        else none
      else none

/-- Update the entry of `k` in an association list, appending a fresh
entry at the end when `k` is absent. -/
def alUpdate {β : Type} (k : String) (f : Option β → β) :
    List (String × β) → List (String × β)
  | [] => [(k, f none)]
  | (k2, v) :: rest =>
    if k2 = k then (k, f (some v)) :: rest
    else (k2, v) :: alUpdate k f rest

/-- Look up a key in an association list. -/
def alLookup {β : Type} (k : String) : List (String × β) → Option β
  | [] => none
  | (k2, v) :: rest => if k2 = k then some v else alLookup k rest

/-- Modelled from the spec (§4.3): the partitions map discovered from
a raw key listing.  For each table, every conforming key adds its file
to the record of its partition label; garbage keys are silently
skipped; records of different tables are merged by label. -/
def scanPartitions (dataset_id : String) (tables : List String) (keys : List String) :
    List (String × List (String × String)) :=
  tables.foldl (fun acc t =>
    keys.foldl (fun acc2 k =>
      match parsePartitionKey dataset_id t k with
      | some label => alUpdate label (fun o => (o.getD []) ++ [(t, k)]) acc2
      | none => acc2) acc) []

/-- Decoded (column, value) pairs of a partition label: its
`column=value` segments, unquoted. -/
def labelPairs (label : String) : Except KtkError (List (String × String)) :=
  unquote_indices (((splitOnChar '/' label.data).dropLast).map String.mk)

/-- Append `label` to `labels` unless it is already present. -/
def insertLabel (label : String) (labels : List String) : List String :=
  if label ∈ labels then labels else labels ++ [label]

/-- Insert a partition label under a (column, value) pair of the
inverted index, deduplicating repeated insertions of the same
(column, value, label) triple. -/
def idxInsert (col val label : String)
    (idx : List (String × List (String × List String))) :
    List (String × List (String × List String)) :=
  alUpdate col (fun o =>
    alUpdate val (fun o2 => insertLabel label (o2.getD [])) (o.getD [])) idx

/-- Modelled from the spec (§4.4): fold every (column, value) pair
attached to every partition label into the inverted index. -/
def buildIndicesFromPairs (entries : List (String × List (String × String))) :
    List (String × List (String × List String)) :=
  entries.foldl (fun idx e =>
    e.2.foldl (fun idx2 p => idxInsert p.1 p.2 e.1 idx2) idx) []

/-- Modelled from the spec (§4.3–§4.4): decode the pairs of every
discovered partition label and build the secondary indices. -/
def scanIndices (dataset_id : String) (tables : List String) (keys : List String) :
    Except KtkError (List (String × List (String × List String))) :=
  ((scanPartitions dataset_id tables keys).mapM fun e =>
      (labelPairs e.1).map fun ps => (e.1, ps)).map buildIndicesFromPairs

/-- The label list stored under a column and value of the index. -/
def idxGet (idx : List (String × List (String × List String))) (c v : String) :
    List String :=
  (alLookup v ((alLookup c idx).getD [])).getD []

/-- Suffix of the metadata document key (`naming.METADATA_BASE_SUFFIX`
of the spec §6). -/
def METADATA_BASE_SUFFIX : String := ".by-dataset-metadata"

/-- Key of the metadata document of a dataset. -/
def metadataKey (dataset_id : String) : String :=
  dataset_id ++ METADATA_BASE_SUFFIX ++ ".json"

/-- Key of a table schema blob, modelled from the spec (§6): one fixed
key per (dataset, table) pair inside the table's namespace. -/
def commonMetadataKey (dataset_id table : String) : String :=
  dataset_id ++ "/" ++ table ++ "/_common_metadata"

/-- Modelled from the spec (§4.5): the keys belonging to a dataset, in
the fixed order metadata document, per-table schema keys, then the
discovered partition file keys.  Scoping is dataset-id-exact: a
partition file key is recognized only under the full path prefix
`"{dataset_id}/{table}/"`, never by raw string prefix on the
identifier alone. -/
def storage_keys (dataset_id : String) (tables : List String) (keys : List String) :
    List String :=
  metadataKey dataset_id :: (tables.map (commonMetadataKey dataset_id) ++
    keys.filter fun k => tables.any fun t => (parsePartitionKey dataset_id t k).isSome)

lemma gFold_id (d t : String) (g : List String)
    (h : ∀ k ∈ g, parsePartitionKey d t k = none) :
    ∀ acc : List (String × List (String × String)),
      g.foldl (fun acc2 k =>
        match parsePartitionKey d t k with
        | some label => alUpdate label (fun o => (o.getD []) ++ [(t, k)]) acc2
        | none => acc2) acc = acc := by
  induction g with
  | nil => intro acc; rfl
  | cons k g ih =>
    intro acc
    rw [List.foldl_cons]
    rw [show (match parsePartitionKey d t k with
        | some label => alUpdate label (fun o => (o.getD []) ++ [(t, k)]) acc
        | none => acc) = acc from by rw [h k (List.mem_cons_self k g)]]
    exact ih (fun k2 hk2 => h k2 (List.mem_cons_of_mem k hk2)) acc

lemma scanPartitions_append_garbage (d : String) (tables keys g : List String)
    (h : ∀ k ∈ g, ∀ t ∈ tables, parsePartitionKey d t k = none) :
    scanPartitions d tables (keys ++ g) = scanPartitions d tables keys := by
  unfold scanPartitions
  have H : ∀ (ts : List String),
      (∀ k ∈ g, ∀ t ∈ ts, parsePartitionKey d t k = none) →
      ∀ acc : List (String × List (String × String)),
        ts.foldl (fun acc t =>
          (keys ++ g).foldl (fun acc2 k =>
            match parsePartitionKey d t k with
            | some label => alUpdate label (fun o => (o.getD []) ++ [(t, k)]) acc2
            | none => acc2) acc) acc
        = ts.foldl (fun acc t =>
          keys.foldl (fun acc2 k =>
            match parsePartitionKey d t k with
            | some label => alUpdate label (fun o => (o.getD []) ++ [(t, k)]) acc2
            | none => acc2) acc) acc := by
    intro ts
    induction ts with
    | nil => intro _ acc; rfl
    | cons t ts ih =>
      intro hh acc
      rw [List.foldl_cons, List.foldl_cons]
      rw [List.foldl_append]
      rw [gFold_id d t g (fun k hk => hh k hk t (List.mem_cons_self t ts))]
      exact ih (fun k hk t2 ht2 => hh k hk t2 (List.mem_cons_of_mem t ht2)) _
  exact H tables h []

/-- C3: adding keys that do not conform to the partition-key shape —
at the top level, at the table level, or inside a partition directory
of the dataset's namespace — leaves both the partitions map and the
indices map unchanged; the scanner silently skips such keys and never
produces an error for them. -/
theorem scan_garbage_immunity :
    ∀ (dataset_id : String) (tables keys garbage : List String),
      (∀ k ∈ garbage, ∀ t ∈ tables, parsePartitionKey dataset_id t k = none) →
      scanPartitions dataset_id tables (keys ++ garbage)
        = scanPartitions dataset_id tables keys ∧
      scanIndices dataset_id tables (keys ++ garbage)
        = scanIndices dataset_id tables keys := by
  intro d tables keys g h
  have hp := scanPartitions_append_garbage d tables keys g h
  refine ⟨hp, ?_⟩
  unfold scanIndices
  rw [hp]

/-- Dataset identifier of the garbage-immunity scenario. -/
def gUuid : String := "uuid+namespace-attribute12_underscored"

/-- Conforming partition keys of the garbage-immunity scenario. -/
def gKeys : List String :=
  [gUuid ++ "/core/location=L-0/product=P-0/suffix.parquet",
   gUuid ++ "/core/location=L-1/product=P-0/suffix.parquet"]

/-- The garbage keys the test deposits at the top level, the table
level and inside a partition directory. -/
def garbageKeys : List String :=
  ["this_should_not_exist", "this_should_not_exist.json",
   "this_should_not_exist.msgpack", "this_should_not_exist.my_own_file_format",
   gUuid ++ "/this_should_not_exist", gUuid ++ "/this_should_not_exist.json",
   gUuid ++ "/this_should_not_exist.msgpack",
   gUuid ++ "/this_should_not_exist.my_own_file_format",
   gUuid ++ "/core/this_should_not_exist", gUuid ++ "/core/this_should_not_exist.json",
   gUuid ++ "/core/this_should_not_exist.msgpack",
   gUuid ++ "/core/this_should_not_exist.my_own_file_format",
   gUuid ++ "/core/location=L-0/this_should_not_exist",
   gUuid ++ "/core/location=L-0/this_should_not_exist.json",
   gUuid ++ "/core/location=L-0/this_should_not_exist.msgpack",
   gUuid ++ "/core/location=L-0/this_should_not_exist.my_own_file_format"]

/-- Witness for C3: on the concrete store of the test, the garbage
keys are all non-conforming and neither partitions nor indices
change. -/
theorem scan_garbage_immunity_witness :
    (∀ k ∈ garbageKeys, ∀ t ∈ ["core"], parsePartitionKey gUuid t k = none) ∧
    scanPartitions gUuid ["core"] (gKeys ++ garbageKeys)
      = scanPartitions gUuid ["core"] gKeys ∧
    scanIndices gUuid ["core"] (gKeys ++ garbageKeys)
      = scanIndices gUuid ["core"] gKeys :=
  ⟨by decide, (scan_garbage_immunity gUuid ["core"] gKeys garbageKeys (by decide)).1,
   (scan_garbage_immunity gUuid ["core"] gKeys garbageKeys (by decide)).2⟩

lemma alLookup_alUpdate_self {β : Type} (k : String) (f : Option β → β) :
    ∀ al : List (String × β), alLookup k (alUpdate k f al) = some (f (alLookup k al)) := by
  intro al
  induction al with
  | nil => simp [alUpdate, alLookup]
  | cons e rest ih =>
    obtain ⟨k2, v⟩ := e
    by_cases h : k2 = k
    · subst h
      simp [alUpdate, alLookup]
    · simp only [alUpdate, alLookup, if_neg h]
      exact ih

lemma alLookup_alUpdate_other {β : Type} (k k2 : String) (f : Option β → β) (h : k2 ≠ k) :
    ∀ al : List (String × β), alLookup k2 (alUpdate k f al) = alLookup k2 al := by
  have hne : k ≠ k2 := fun he => h he.symm
  intro al
  induction al with
  | nil =>
    simp only [alUpdate, alLookup]
    rw [if_neg hne]
  | cons e rest ih =>
    obtain ⟨k3, v⟩ := e
    by_cases h3 : k3 = k
    · subst h3
      simp only [alUpdate, if_pos rfl, alLookup]
      rw [if_neg hne, if_neg hne]
    · simp only [alUpdate, if_neg h3, alLookup]
      by_cases h32 : k3 = k2
      · rw [if_pos h32, if_pos h32]
      · rw [if_neg h32, if_neg h32]
        exact ih

lemma idxGet_idxInsert_self (col val label : String)
    (idx : List (String × List (String × List String))) :
    idxGet (idxInsert col val label idx) col val
      = insertLabel label (idxGet idx col val) := by
  unfold idxGet idxInsert
  rw [alLookup_alUpdate_self]
  simp only [Option.getD_some]
  rw [alLookup_alUpdate_self]
  simp only [Option.getD_some]

lemma idxGet_idxInsert_other (col val label c v : String)
    (h : c ≠ col ∨ v ≠ val) (idx : List (String × List (String × List String))) :
    idxGet (idxInsert col val label idx) c v = idxGet idx c v := by
  unfold idxGet idxInsert
  by_cases hc : c = col
  · subst hc
    rcases h with h | h
    · exact absurd rfl h
    · rw [alLookup_alUpdate_self]
      simp only [Option.getD_some]
      rw [alLookup_alUpdate_other _ _ _ h]
  · rw [alLookup_alUpdate_other _ _ _ hc]

lemma insertLabel_nodup (label : String) (labels : List String) (h : labels.Nodup) :
    (insertLabel label labels).Nodup := by
  unfold insertLabel
  split_ifs with hm
  · exact h
  · rw [List.nodup_append]
    exact ⟨h, List.nodup_singleton label, fun a ha hb =>
      hm ((List.mem_singleton.mp hb) ▸ ha)⟩

lemma insertLabel_idem (label : String) (labels : List String) :
    insertLabel label (insertLabel label labels) = insertLabel label labels := by
  by_cases h : label ∈ labels
  · simp [insertLabel, h]
  · simp [insertLabel, h, List.mem_append]

lemma idxInsert_inv (col val label : String)
    (idx : List (String × List (String × List String)))
    (h : ∀ c v, (idxGet idx c v).Nodup) :
    ∀ c v, (idxGet (idxInsert col val label idx) c v).Nodup := by
  intro c v
  by_cases hc : c = col
  · subst hc
    by_cases hv : v = val
    · subst hv
      rw [idxGet_idxInsert_self]
      exact insertLabel_nodup _ _ (h c v)
    · rw [idxGet_idxInsert_other _ _ _ _ _ (Or.inr hv)]
      exact h c v
  · rw [idxGet_idxInsert_other _ _ _ _ _ (Or.inl hc)]
    exact h c v

lemma foldPairs_inv (label : String) (ps : List (String × String)) :
    ∀ (idx : List (String × List (String × List String))),
      (∀ c v, (idxGet idx c v).Nodup) →
      ∀ c v, (idxGet (ps.foldl (fun idx2 p => idxInsert p.1 p.2 label idx2) idx) c v).Nodup := by
  induction ps with
  | nil => intro idx h; exact h
  | cons p ps ih =>
    intro idx h
    rw [List.foldl_cons]
    exact ih _ (idxInsert_inv p.1 p.2 label idx h)

lemma buildIndices_inv (entries : List (String × List (String × String))) :
    ∀ c v, (idxGet (buildIndicesFromPairs entries) c v).Nodup := by
  unfold buildIndicesFromPairs
  have H : ∀ (es : List (String × List (String × String)))
      (idx : List (String × List (String × List String))),
      (∀ c v, (idxGet idx c v).Nodup) →
      ∀ c v, (idxGet (es.foldl (fun idx e =>
        e.2.foldl (fun idx2 p => idxInsert p.1 p.2 e.1 idx2) idx) idx) c v).Nodup := by
    intro es
    induction es with
    | nil => intro idx h; exact h
    | cons e es ih =>
      intro idx h
      rw [List.foldl_cons]
      exact ih _ (foldPairs_inv e.1 e.2 idx h)
  exact H entries [] (fun c v => by simp [idxGet, alLookup])

/-- C8: in every built index, a partition label appears in the list
`indices[column][value]` at most once per (column, value) pair, and a
repeated insertion of the same (column, value, label) triple — as
happens when several tables share a partitioning column — leaves the
index unchanged. -/
theorem index_labels_nodup :
    (∀ (entries : List (String × List (String × String))) (col val label : String),
        (idxGet (buildIndicesFromPairs entries) col val).count label ≤ 1) ∧
    (∀ (idx : List (String × List (String × List String))) (col val label : String),
        idxGet (idxInsert col val label (idxInsert col val label idx)) col val
          = idxGet (idxInsert col val label idx) col val) := by
  constructor
  · intro entries col val label
    exact List.nodup_iff_count_le_one.mp (buildIndices_inv entries col val) label
  · intro idx col val label
    rw [idxGet_idxInsert_self, idxGet_idxInsert_self, insertLabel_idem]

lemma string_data_eq {a b : String} (h : a.data = b.data) : a = b := by
  cases a
  cases b
  exact congrArg String.mk h

lemma metadataKey_data (u : String) :
    (metadataKey u).data = u.data ++ (METADATA_BASE_SUFFIX.data ++ (".json" : String).data) := by
  unfold metadataKey
  rw [String.data_append, String.data_append, List.append_assoc]

lemma slash_not_mem_metaSuffix :
    '/' ∉ (METADATA_BASE_SUFFIX.data ++ (".json" : String).data) := by decide

lemma commonMetadataKey_pre (u t : String) :
    (u.data ++ ['/']) <+: (commonMetadataKey u t).data := by
  unfold commonMetadataKey
  rw [String.data_append, String.data_append, String.data_append]
  exact ⟨t.data ++ ("/_common_metadata" : String).data, by simp [List.append_assoc]⟩

lemma parse_isSome_pre {u t k : String} (h : (parsePartitionKey u t k).isSome) :
    (u.data ++ ['/']) <+: k.data := by
  unfold parsePartitionKey dropPre at h
  split_ifs at h with hp
  · refine List.IsPrefix.trans ?_ hp
    exact ⟨t.data ++ ['/'], by simp⟩
  · simp at h

lemma storage_keys_mem {u : String} {tables keys : List String} {k : String}
    (hk : k ∈ storage_keys u tables keys) :
    k = metadataKey u ∨ (u.data ++ ['/']) <+: k.data := by
  unfold storage_keys at hk
  rw [List.mem_cons] at hk
  rcases hk with rfl | hk
  · exact Or.inl rfl
  rw [List.mem_append] at hk
  rcases hk with hk | hk
  · obtain ⟨t, _, rfl⟩ := List.mem_map.mp hk
    exact Or.inr (commonMetadataKey_pre u t)
  · obtain ⟨hkk, hpred⟩ := List.mem_filter.mp hk
    obtain ⟨t, _, hsome⟩ := List.any_eq_true.mp hpred
    exact Or.inr (parse_isSome_pre hsome)

lemma prefix_slash_head {c : Char} {l : List Char} (h : ['/'] <+: c :: l) : c = '/' := by
  obtain ⟨t2, ht⟩ := h
  simp only [List.cons_append, List.nil_append, List.cons.injEq] at ht
  exact ht.1.symm

lemma ns_key_disjoint {u1 u2 : String} (hpre : u1.data <+: u2.data) (hne : u1 ≠ u2)
    (hslash : '/' ∉ u2.data) {k : String}
    (h1 : k = metadataKey u1 ∨ (u1.data ++ ['/']) <+: k.data)
    (h2 : k = metadataKey u2 ∨ (u2.data ++ ['/']) <+: k.data) : False := by
  obtain ⟨e, he⟩ := hpre
  cases e with
  | nil =>
    rw [List.append_nil] at he
    exact hne (string_data_eq he)
  | cons c e =>
    have hc : c ∈ u2.data := by
      rw [← he]
      exact List.mem_append_right _ (List.mem_cons_self c e)
    have hcs : c ≠ '/' := fun h0 => hslash (h0 ▸ hc)
    rcases h1 with rfl | h1 <;> rcases h2 with h2 | h2
    · have hd := congrArg String.data h2
      rw [metadataKey_data, metadataKey_data] at hd
      exact hne (string_data_eq (List.append_cancel_right hd))
    · rw [metadataKey_data, ← he, List.append_assoc, List.prefix_append_right_inj] at h2
      exact slash_not_mem_metaSuffix (h2.subset (by simp))
    · rw [h2, metadataKey_data, ← he, List.append_assoc,
        List.prefix_append_right_inj, List.cons_append] at h1
      exact hcs (prefix_slash_head h1)
    · have hlen : (u1.data ++ ['/']).length ≤ (u2.data ++ ['/']).length := by
        have := congrArg List.length he
        simp only [List.length_append] at this ⊢
        omega
      have h12 := List.prefix_of_prefix_length_le h1 h2 hlen
      rw [← he, List.append_assoc, List.prefix_append_right_inj,
        List.cons_append] at h12
      exact hcs (prefix_slash_head h12)

lemma alUpdate_mem {β : Type} (k : String) (f : Option β → β) :
    ∀ (al : List (String × β)) (e : String × β), e ∈ alUpdate k f al →
      e ∈ al ∨ e = (k, f none) ∨ ∃ v, (k, v) ∈ al ∧ e = (k, f (some v)) := by
  intro al
  induction al with
  | nil =>
    intro e he
    simp only [alUpdate, List.mem_singleton] at he
    exact Or.inr (Or.inl he)
  | cons p rest ih =>
    intro e he
    obtain ⟨k2, v⟩ := p
    by_cases h2 : k2 = k
    · subst h2
      simp only [alUpdate, if_pos rfl] at he
      cases he with
      | head => exact Or.inr (Or.inr ⟨v, List.mem_cons_self _ _, rfl⟩)
      | tail b he => exact Or.inl (List.mem_cons_of_mem _ he)
    · simp only [alUpdate, if_neg h2] at he
      cases he with
      | head => exact Or.inl (List.mem_cons_self _ _)
      | tail b he =>
        rcases ih e he with h | h | ⟨v2, hv2, he2⟩
        · exact Or.inl (List.mem_cons_of_mem _ h)
        · exact Or.inr (Or.inl h)
        · exact Or.inr (Or.inr ⟨v2, List.mem_cons_of_mem _ hv2, he2⟩)

/-- Accumulator invariant of the scanner: every record has at least
one file, and every file key lies inside the dataset's namespace. -/
def ScanInv (d : String) (acc : List (String × List (String × String))) : Prop :=
  ∀ e ∈ acc, e.2 ≠ [] ∧ ∀ p ∈ e.2, (d.data ++ ['/']) <+: p.2.data

lemma keysFold_inv (d t : String) (keys : List String) :
    ∀ acc, ScanInv d acc →
      ScanInv d (keys.foldl (fun acc2 k =>
        match parsePartitionKey d t k with
        | some label => alUpdate label (fun o => (o.getD []) ++ [(t, k)]) acc2
        | none => acc2) acc) := by
  induction keys with
  | nil => intro acc h; exact h
  | cons k keys ih =>
    intro acc h
    rw [List.foldl_cons]
    apply ih
    cases hp : parsePartitionKey d t k with
    | none => exact h
    | some label =>
      intro e he
      rcases alUpdate_mem _ _ acc e he with hin | rfl | ⟨v, hv, rfl⟩
      · exact h e hin
      · refine ⟨by simp, ?_⟩
        intro p hp2
        simp only [Option.getD_none, List.nil_append, List.mem_singleton] at hp2
        subst hp2
        exact parse_isSome_pre (by rw [hp]; rfl)
      · obtain ⟨hne, hpre⟩ := h (label, v) hv
        refine ⟨by simp, ?_⟩
        intro p hp2
        simp only [Option.getD_some, List.mem_append, List.mem_singleton] at hp2
        rcases hp2 with hp2 | rfl
        · exact hpre p hp2
        · exact parse_isSome_pre (by rw [hp]; rfl)

lemma scanPartitions_files (d : String) (tables keys : List String) :
    ScanInv d (scanPartitions d tables keys) := by
  unfold scanPartitions
  have H : ∀ (ts : List String) (acc : List (String × List (String × String))),
      ScanInv d acc →
      ScanInv d (ts.foldl (fun acc t =>
        keys.foldl (fun acc2 k =>
          match parsePartitionKey d t k with
          | some label => alUpdate label (fun o => (o.getD []) ++ [(t, k)]) acc2
          | none => acc2) acc) acc) := by
    intro ts
    induction ts with
    | nil => intro acc h; exact h
    | cons t ts ih =>
      intro acc h
      rw [List.foldl_cons]
      exact ih _ (keysFold_inv d t keys acc h)
  exact H tables [] (fun e he => absurd he (List.not_mem_nil e))

/-- C2: two datasets whose identifiers are one a proper textual prefix
of the other (the identifiers being single path segments, i.e. free of
`/`) have disjoint `storage_keys`, their discovered partitions maps
share no entry — the file keys of each lie strictly inside its own
namespace — and `storage_keys` of each dataset never contains a key
belonging to the other (its metadata document key or any key under its
namespace), in both directions: the prefix-id dataset excludes the
superstring-id dataset's keys and vice versa. -/
theorem storage_keys_namespace_isolation :
    ∀ (u1 u2 : String) (tables1 tables2 keys : List String),
      u1.data <+: u2.data → u1 ≠ u2 → '/' ∉ u2.data →
      (storage_keys u1 tables1 keys).Disjoint (storage_keys u2 tables2 keys) ∧
      (scanPartitions u1 tables1 keys).Disjoint (scanPartitions u2 tables2 keys) ∧
      (∀ k ∈ storage_keys u1 tables1 keys,
        ¬(k = metadataKey u2 ∨ (u2.data ++ ['/']) <+: k.data)) ∧
      (∀ k ∈ storage_keys u2 tables2 keys,
        ¬(k = metadataKey u1 ∨ (u1.data ++ ['/']) <+: k.data)) := by
  intro u1 u2 tables1 tables2 keys hpre hne hsl
  refine ⟨fun k hk1 hk2 =>
      ns_key_disjoint hpre hne hsl (storage_keys_mem hk1) (storage_keys_mem hk2),
    fun e he1 he2 => ?_,
    fun k hk hbel => ns_key_disjoint hpre hne hsl (storage_keys_mem hk) hbel,
    fun k hk hbel => ns_key_disjoint hpre hne hsl hbel (storage_keys_mem hk)⟩
  obtain ⟨hne1, hpre1⟩ := scanPartitions_files u1 tables1 keys e he1
  obtain ⟨_, hpre2⟩ := scanPartitions_files u2 tables2 keys e he2
  cases hl : e.2 with
  | nil => exact hne1 hl
  | cons p ps =>
    have hp : p ∈ e.2 := by rw [hl]; exact List.mem_cons_self p ps
    exact ns_key_disjoint hpre hne hsl (Or.inr (hpre1 p hp)) (Or.inr (hpre2 p hp))

/-- Store contents of the keyspace-overlap scenario: both datasets
share the backing store. -/
def overlapKeys : List String :=
  [metadataKey "uuid", metadataKey "uuid_ext",
   commonMetadataKey "uuid" "core", commonMetadataKey "uuid_ext" "core",
   "uuid/core/location=L-0/data.parquet", "uuid_ext/core/location=L-0/data.parquet"]

/-- Witness for C2: the concrete overlapping identifiers `"uuid"` and
`"uuid_ext"` on a shared store. -/
theorem storage_keys_namespace_isolation_witness :
    (("uuid" : String).data <+: ("uuid_ext" : String).data ∧
      ("uuid" : String) ≠ "uuid_ext" ∧ '/' ∉ ("uuid_ext" : String).data) ∧
    ((storage_keys "uuid" ["core"] overlapKeys).Disjoint
        (storage_keys "uuid_ext" ["core"] overlapKeys) ∧
      (scanPartitions "uuid" ["core"] overlapKeys).Disjoint
        (scanPartitions "uuid_ext" ["core"] overlapKeys) ∧
      (∀ k ∈ storage_keys "uuid" ["core"] overlapKeys,
        ¬(k = metadataKey "uuid_ext" ∨
          (("uuid_ext" : String).data ++ ['/']) <+: k.data)) ∧
      (∀ k ∈ storage_keys "uuid_ext" ["core"] overlapKeys,
        ¬(k = metadataKey "uuid" ∨
          (("uuid" : String).data ++ ['/']) <+: k.data))) :=
  ⟨⟨by decide, by decide, by decide⟩,
    storage_keys_namespace_isolation "uuid" "uuid_ext" ["core"] ["core"] overlapKeys
      (by decide) (by decide) (by decide)⟩

end Kartothek
